import Mathlib

/-!
# Verification of the valis indexing engine

A shallow embedding of the valis block indexer, checked against its
natural-language specification.  The definitions below are translated from
the Go sources:

* `indexer/indexer.go` — the retry configuration (`RtyAttNum`, `RtyDel`,
  `RtyErr`) and the concurrent fan-out `(*Indexer).ForEachBlock`, which is
  embedded as a small-step transition system over `PassState` (one state per
  interleaving point of the main goroutine and the worker goroutines);
* `indexer/actions/ibc/ibc.go` — the per-transaction loop of
  `IndexIBCTransfers`;
* `cmd/start.go` and `cmd/actions.go` — the start command's run pipeline and
  the action-name registry `GetBlockActionByName`.
-/

namespace Valis

/-! ## Retry policy

`indexer.go` declares the package-wide retry tuning

```
RtyAttNum = uint(5)
RtyAtt    = retry.Attempts(RtyAttNum)
RtyDel    = retry.Delay(time.Millisecond * 400)
RtyErr    = retry.LastErrorOnly(true)
```

and `ForEachBlock` wraps the block query in
`retry.Do(..., RtyAtt, RtyDel, RtyErr, retry.DelayType(retry.BackOffDelay), ...)`.
The semantics of `retry.Do` (avast/retry-go v4) with these options: run the
operation up to `Attempts` times, sleeping `BackOffDelay` between attempts,
and report only the error of the final attempt. -/

/-- Retry attempt budget: `RtyAttNum = uint(5)` in indexer.go. -/
def RtyAttNum : Nat := 5

/-- Base retry delay in milliseconds: `RtyDel = retry.Delay(time.Millisecond * 400)`. -/
def RtyDelMs : Nat := 400

/-- Delay in milliseconds slept before retry number `n + 1` (`n` failures so
far), per retry-go's `BackOffDelay`: the configured base delay shifted left by
`n`.  (retry-go caps the shift so the 64-bit duration cannot overflow; with
the 5-attempt budget used by the indexer `n ≤ 3`, far below that cap, so the
cap is not modelled.) -/
def backOffDelayMs (n : Nat) : Nat := RtyDelMs * 2 ^ n

/-- `retry.Do` with `Attempts` and `LastErrorOnly(true)`: `attempt i` is the
outcome of the `i`-th invocation of the wrapped operation (0-based);
`retryFrom attempt i fuel` runs invocations `i, i + 1, …` with `fuel`
attempts remaining, returning the first success or the error of the final
attempt.  (`Attempts(0)`, which retry-go treats as retry-until-success, is
never used by the indexer; the `fuel = 0` case is given a single attempt only
to make the function total.) -/
def retryFrom (attempt : Nat → Except ε α) : Nat → Nat → Except ε α
  | i, 0 => attempt i
  | i, 1 => attempt i
  | i, n + 2 =>
    match attempt i with
    | .ok a => .ok a
    | .error _ => retryFrom attempt (i + 1) (n + 1)

/-- The bounded-retry call `retry.Do(func() error { block, err = …Block(egCtx, &h); … })`
as configured by `ForEachBlock`: `RtyAttNum` attempts. -/
def retryDo (attempt : Nat → Except ε α) : Except ε α :=
  retryFrom attempt 0 RtyAttNum

/-- How many times `retryFrom` invokes the wrapped operation. -/
def retryCountFrom (attempt : Nat → Except ε α) : Nat → Nat → Nat
  | _, 0 => 1
  | _, 1 => 1
  | i, n + 2 =>
    match attempt i with
    | .ok _ => 1
    | .error _ => 1 + retryCountFrom attempt (i + 1) (n + 1)

/-- How many times `retryDo` invokes the wrapped operation. -/
def retryCount (attempt : Nat → Except ε α) : Nat :=
  retryCountFrom attempt 0 RtyAttNum

/-! ## Block actions

`indexer.go` defines the `BlockAction` interface (`Name`, `MigrateSchema`,
`Execute`) and `ForEachBlock` runs, for each successfully fetched block,

```
for _, a := range actions {
    if err := a.Execute(egCtx, i, block); err != nil {
        i.log.Warn("Failed to execute block action properly", …)
    }
}
```

The engine treats the fetched block as opaque, so a block is identified here
by its height. -/

/-- A registered `BlockAction` as the engine sees it: its `Name()` and the
outcome of `Execute` on the block at each height. -/
structure ActionModel where
  name : String
  execute : Int → Except String Unit

/-- The per-block action loop of a `ForEachBlock` worker: every registered
action's `Execute` runs in registration order; a returned error is only
logged (`log.Warn`) and the loop continues with the next action.  The result
is the invocation trace: each invoked action's name paired with whether its
`Execute` succeeded. -/
def execBlockActions (acts : List ActionModel) (h : Int) : List (String × Bool) :=
  match acts with
  | [] => []
  | a :: rest =>
    match a.execute h with
    | .ok _ => (a.name, true) :: execBlockActions rest h
    | .error _ => (a.name, false) :: execBlockActions rest h

/-- A worker's action trace tagged with its block height, as recorded in the
run-wide action log of the transition system below. -/
def tagTrace (acts : List ActionModel) (h : Int) : List (Int × String × Bool) :=
  (execBlockActions acts h).map (fun p => (h, p.1, p.2))

/-! ## The `ForEachBlock` pass as a transition system

`ForEachBlock(ctx, blocks, actions, concurrentBlocks)` sets up

```
var (
    mutex        sync.Mutex
    failedBlocks = make([]int64, 0)
    sem          = make(chan struct{}, concurrentBlocks)
    eg, egCtx    = errgroup.WithContext(ctx)
)
```

then, for each height, sends on `sem` and spawns a worker with `eg.Go`.  The
worker queries the block under the retry policy; on failure it runs

```
func() {
    mutex.Lock()
    defer mutex.Lock()
    failedBlocks = append(failedBlocks, h)
}()
<-sem
return err
```

(note: the deferred statement is a second `mutex.Lock()`, exactly as the
source writes it, and nothing in `ForEachBlock` ever calls `mutex.Unlock()`);
on success it runs the action loop, receives from `sem` and returns nil.
After `eg.Wait()` the function returns the first worker error if any,
otherwise calls itself recursively on `failedBlocks` when that slice is
non-empty, otherwise returns nil.

Each interleaving point of this code is a `Phase`; the scheduler is
nondeterministic (`stepsFrom` enumerates every enabled transition). -/

/-- Where one worker goroutine of `ForEachBlock` stands. -/
inductive Phase where
  /-- the retry-wrapped block query is running -/
  | fetching
  /-- the query failed after all retries; at the first `mutex.Lock()` -/
  | failLock
  /-- holds the mutex; about to append the height to `failedBlocks` -/
  | failAppend
  /-- append done; the deferred `mutex.Lock()` is waiting to acquire -/
  | failDefer
  /-- past the deferred acquire; at `<-sem` on the error path -/
  | failRelease
  /-- returned the fetch error to the errgroup -/
  | doneErr
  /-- the query succeeded; running the `BlockAction` loop -/
  | execActions
  /-- the action loop finished; at `<-sem` on the success path -/
  | release
  /-- returned nil to the errgroup -/
  | doneOk
deriving DecidableEq

/-- A worker has returned (is no longer in flight). -/
def Phase.isDone : Phase → Bool
  | .doneErr => true
  | .doneOk => true
  | _ => false

/-- One worker goroutine: the height it was launched for and its phase. -/
structure WTask where
  height : Int
  phase : Phase
deriving DecidableEq

/-- One pass of `ForEachBlock`: the heights the main loop has not yet
launched, the number of occupied `sem` slots, the launched workers in launch
order, the holder of `mutex` (as a worker index), the `failedBlocks` slice,
and the log of all `Execute` invocations made so far. -/
structure PassState where
  remaining : List Int
  semCount : Nat
  tasks : List WTask
  mutexHeld : Option Nat
  failedBlocks : List Int
  actionLog : List (Int × String × Bool)
deriving DecidableEq

/-- The state in which `ForEachBlock` starts a pass over `blocks`. -/
def initState (blocks : List Int) : PassState :=
  ⟨blocks, 0, [], none, [], []⟩

/-- The main loop body `sem <- struct{}{}; eg.Go(func() error { … })`: the
send succeeds only while a semaphore slot is free, then the next height's
worker is launched. -/
def mainSteps (cap : Nat) (s : PassState) : List PassState :=
  match s.remaining with
  | [] => []
  | h :: rest =>
    if s.semCount < cap then
      [{ s with remaining := rest, semCount := s.semCount + 1,
                tasks := s.tasks ++ [⟨h, .fetching⟩] }]
    else []

/-- Worker `i` (currently `t`) moves to phase `p`; the other fields change
per transition at the call sites. -/
def setPhase (s : PassState) (i : Nat) (t : WTask) (p : Phase) : PassState :=
  { s with tasks := s.tasks.set i ⟨t.height, p⟩ }

/-- The enabled transitions of worker `i` (currently `t`).  `fetchFails h` is
the outcome of the retry-wrapped block query for height `h` (`true` = every
attempt failed).  A worker waiting in `mutex.Lock()` has no transition while
the mutex is held; since `ForEachBlock` never calls `mutex.Unlock()`, no
transition clears `mutexHeld`. -/
def taskSteps (fetchFails : Int → Bool) (acts : List ActionModel)
    (s : PassState) (i : Nat) (t : WTask) : List PassState :=
  match t.phase with
  | .fetching =>
    [setPhase s i t (if fetchFails t.height then .failLock else .execActions)]
  | .failLock =>
    match s.mutexHeld with
    | none => [{ setPhase s i t .failAppend with mutexHeld := some i }]
    | some _ => []
  | .failAppend =>
    [{ setPhase s i t .failDefer with failedBlocks := s.failedBlocks ++ [t.height] }]
  | .failDefer =>
    match s.mutexHeld with
    | none => [{ setPhase s i t .failRelease with mutexHeld := some i }]
    | some _ => []
  | .failRelease =>
    [{ setPhase s i t .doneErr with semCount := s.semCount - 1 }]
  | .execActions =>
    [{ setPhase s i t .release with actionLog := s.actionLog ++ tagTrace acts t.height }]
  | .release =>
    [{ setPhase s i t .doneOk with semCount := s.semCount - 1 }]
  | .doneErr => []
  | .doneOk => []

/-- The transitions of workers `i, i + 1, …` holding tasks `ts`. -/
def taskStepsAux (ff : Int → Bool) (acts : List ActionModel) (s : PassState) :
    Nat → List WTask → List PassState
  | _, [] => []
  | i, t :: ts => taskSteps ff acts s i t ++ taskStepsAux ff acts s (i + 1) ts

/-- Every transition enabled in `s`: one for the main goroutine when it can
launch the next height, and one for each worker whose next statement can
run. -/
def stepsFrom (ff : Int → Bool) (acts : List ActionModel) (cap : Nat)
    (s : PassState) : List PassState :=
  mainSteps cap s ++ taskStepsAux ff acts s 0 s.tasks

/-- One scheduling step of the pass. -/
def PassStep (ff : Int → Bool) (acts : List ActionModel) (cap : Nat)
    (s s' : PassState) : Prop :=
  s' ∈ stepsFrom ff acts cap s

/-- Reachability under any interleaving. -/
def PassReachable (ff : Int → Bool) (acts : List ActionModel) (cap : Nat) :
    PassState → PassState → Prop :=
  Relation.ReflTransGen (PassStep ff acts cap)

/-- No goroutine of the pass can make progress. -/
def Stuck (ff : Int → Bool) (acts : List ActionModel) (cap : Nat)
    (s : PassState) : Prop :=
  stepsFrom ff acts cap s = []

/-- The pass has drained: every height was launched and every worker has
returned, so `eg.Wait()` returns. -/
def Finished (s : PassState) : Prop :=
  s.remaining = [] ∧ ∀ t ∈ s.tasks, t.phase.isDone = true

/-- The number of fetch/process tasks in flight (launched, not yet
returned). -/
def inFlight (s : PassState) : Nat :=
  s.tasks.countP (fun t => !t.phase.isDone)

/-- Whether `eg.Wait()` reports an error: some worker returned one. -/
def egWaitErr (s : PassState) : Bool :=
  s.tasks.any (fun t => t.phase == .doneErr)

/-- What `ForEachBlock` does once `eg.Wait()` has returned. -/
inductive PassResult where
  /-- `eg.Wait()` returned an error and `ForEachBlock` returns it -/
  | fatal
  /-- `ForEachBlock` calls itself recursively on the failed heights -/
  | recurse (hs : List Int)
  /-- `ForEachBlock` returns nil -/
  | success
deriving DecidableEq

/-- The tail of `ForEachBlock`, read off a finished pass:

```
if err := eg.Wait(); err != nil { return err }
if len(failedBlocks) > 0 { return i.ForEachBlock(ctx, failedBlocks, actions, concurrentBlocks) }
return nil
``` -/
def passResult (s : PassState) : PassResult :=
  if egWaitErr s then .fatal
  else if s.failedBlocks.isEmpty then .success
  else .recurse s.failedBlocks

/-! ## The `ics20_transfers` action

`ibc.go`'s `IndexIBCTransfers` iterates over `block.Block.Data.Txs`.  A
transaction that fails to decode (`TxDecoder()(tx)`) or whose results cannot
be queried (`QueryTx`) is logged and skipped with `continue`.  Otherwise the
decoded transaction is cast with the unchecked type assertion
`fee := sdkTx.(sdk.FeeTx)`, which panics when the dynamic type does not
implement the interface. -/

/-- One transaction of a block as `IndexIBCTransfers` examines it: whether
the codec's `TxDecoder` succeeds on it, whether `QueryTx` succeeds for it,
and whether the decoded transaction implements `sdk.FeeTx`. -/
structure TxModel where
  decodes : Bool
  queryOk : Bool
  isFeeTx : Bool
deriving DecidableEq

/-- How a call of the action's `Execute` ends. -/
inductive ExecResult where
  /-- the goroutine panics (no error value is returned) -/
  | panics
  /-- `IndexIBCTransfers` returns nil -/
  | ok
deriving DecidableEq

/-- The per-transaction loop of `IndexIBCTransfers`.  After the decode and
query guards, the later per-transaction steps (setting hash, timestamp and
raw log, the database writes, and `HandleIBCMsg`) log their failures and
neither return an error nor panic, so they are abstracted away; the loop ends
with `return nil`.  The context-cancellation check at the top of the loop is
not modelled (no cancellation is injected here). -/
def indexIBCTransfers : List TxModel → ExecResult
  | [] => .ok
  | tx :: rest =>
    if !tx.decodes then indexIBCTransfers rest
    else if !tx.queryOk then indexIBCTransfers rest
    else if !tx.isFeeTx then .panics
    else indexIBCTransfers rest

/-! ## The start command

`cmd/actions.go` resolves configured action names:

```
switch name {
case ibc.BlockActionName:
    return ibc.NewIBCTransfer(…), nil
default:
    return nil, fmt.Errorf("there is no block action configured with the name %s", name)
}
```

`cmd/start.go`'s `RunE` validates the `--concurrent-blocks` flag, creates the
chain client and the database connection, builds the height list
`for i := beginBlock; i < endBlock; i++`, resolves the configured action
names — a failed resolution is logged (`"Failed to get block action"`) and
skipped with `continue` — errors when no action resolved, and calls
`i.ForEachBlock(ctx, blocks, actions, concurrentBlocks)`.  No part of the
command calls `MigrateSchema` on any action. -/

/-- `ibc.BlockActionName`, the only name `GetBlockActionByName` recognizes
(`daodao.BlockActionName` exists in the repository but has no case in the
switch). -/
def BlockActionName : String := "ics20_transfers"

/-- The switch of `cmd/actions.go`; a resolved action is represented here by
its name. -/
def GetBlockActionByName (name : String) : Except String String :=
  if name = BlockActionName then .ok name
  else .error ("there is no block action configured with the name " ++ name)

/-- The action-resolution loop of `startCmd`: a name that fails to resolve is
logged and skipped. -/
def resolveActions : List String → List String
  | [] => []
  | n :: rest =>
    match GetBlockActionByName n with
    | .ok a => a :: resolveActions rest
    | .error _ => resolveActions rest

/-- The height list `for i := beginBlock; i < endBlock; i++ { blocks = append(blocks, i) }`. -/
def blockRange (beginBlock endBlock : Int) : List Int :=
  (List.range (endBlock - beginBlock).toNat).map (fun i => beginBlock + i)

/-- The errors `startCmd` can return before reaching the engine (other than
those of the external collaborators). -/
inductive StartError where
  /-- "invalid flag value …, value of --concurrent-blocks must be greater than or equal to 1" -/
  | invalidConcurrentBlocks
  /-- "no block actions configured, check the actions section of your config" -/
  | noBlockActions
deriving DecidableEq

/-- An observable effect of the start pipeline. -/
inductive StartEvent where
  /-- `MigrateSchema` was invoked on the named action -/
  | migrateSchemaCalled (action : String)
  /-- `ForEachBlock` was invoked with these heights, actions and concurrency -/
  | forEachBlockStarted (blocks : List Int) (actions : List String)
      (concurrentBlocks : Nat)
deriving DecidableEq

/-- How many `MigrateSchema` invocations an event trace records. -/
def migrateCalls (evs : List StartEvent) : Nat :=
  evs.countP (fun e => match e with
    | .migrateSchemaCalled _ => true
    | _ => false)

/-- The body of `startCmd`'s `RunE` up to and including the engine
invocation, in source order: validate `concurrentBlocks ≥ 1`, build the
height range, resolve the configured action names (skipping failures), fail
when none resolved, then call `ForEachBlock`.  The chain client, database
connection and debug server are external collaborators modelled as
succeeding.  The returned trace records every `MigrateSchema` invocation the
pipeline makes and the engine invocation; the source contains no
`MigrateSchema` call, so no such event is ever emitted. -/
def startCmdRun (configActions : List String) (beginBlock endBlock : Int)
    (concurrentBlocks : Nat) : Except StartError (List StartEvent) :=
  if concurrentBlocks < 1 then .error .invalidConcurrentBlocks
  else
    let blocks := blockRange beginBlock endBlock
    let actions := resolveActions configActions
    if actions.isEmpty then .error .noBlockActions
    else .ok [.forEachBlockStarted blocks actions concurrentBlocks]

/-! ## Infrastructure: list helpers, decidability, step inversion -/

theorem getElem?_append_some {α : Type _} {l l' : List α} {i : Nat} {a : α}
    (h : l[i]? = some a) : (l ++ l')[i]? = some a := by
  have hi : i < l.length := by
    by_contra hc
    rw [List.getElem?_eq_none (by omega)] at h
    cases h
  rw [List.getElem?_append, if_pos hi]
  exact h

theorem getElem?_append_singleton {α : Type _} {l : List α} {u a : α} {i : Nat}
    (h : (l ++ [u])[i]? = some a) : l[i]? = some a ∨ (i = l.length ∧ a = u) := by
  rcases Nat.lt_trichotomy i l.length with hi | hi | hi
  · left
    rw [List.getElem?_append, if_pos hi] at h
    exact h
  · right
    subst hi
    rw [List.getElem?_concat_length] at h
    exact ⟨rfl, (Option.some.injEq _ _ ▸ h).symm⟩
  · exfalso
    rw [List.getElem?_eq_none (by simp; omega)] at h
    cases h

theorem getElem?_set_index {α : Type _} {l : List α} {i : Nat} {t : α} (a : α)
    (h : l[i]? = some t) : (l.set i a)[i]? = some a := by
  have hi : i < l.length := by
    by_contra hc
    rw [List.getElem?_eq_none (by omega)] at h
    cases h
  exact List.getElem?_set_eq_of_lt a hi

theorem getElem?_set_other {α : Type _} (l : List α) {i j : Nat} (h : i ≠ j) (a : α) :
    (l.set j a)[i]? = l[i]? :=
  List.getElem?_set_ne (by omega)

theorem set_append_length {α : Type _} (l : List α) (a b : α) :
    (l ++ [a]).set l.length b = l ++ [b] := by
  induction l with
  | nil => rfl
  | cons x xs ih => simp [List.set, ih]

theorem countP_set_balance {α : Type _} (p : α → Bool) :
    ∀ (l : List α) (i : Nat) (t a : α), l[i]? = some t →
      (l.set i a).countP p + (if p t then 1 else 0) =
        l.countP p + (if p a then 1 else 0) := by
  intro l
  induction l with
  | nil =>
    intro i t a h
    cases h
  | cons x xs ih =>
    intro i t a h
    cases i with
    | zero =>
      have hx : x = t := by simpa using h
      subst hx
      simp [List.set, List.countP_cons]
      omega
    | succ n =>
      have h' : xs[n]? = some t := by simpa using h
      have := ih n t a h'
      simp [List.set, List.countP_cons]
      omega

theorem isInfix_append_right {α : Type _} {l₁ l₂ : List α} (h : l₁ <:+: l₂)
    (l₃ : List α) : l₁ <:+: l₂ ++ l₃ := by
  obtain ⟨s, t, rfl⟩ := h
  exact ⟨s, t ++ l₃, by simp⟩

theorem isInfix_suffix {α : Type _} (l₁ l₂ : List α) : l₁ <:+: l₂ ++ l₁ :=
  ⟨l₂, [], by simp⟩

instance {ff : Int → Bool} {acts : List ActionModel} {cap : Nat}
    {s s' : PassState} : Decidable (PassStep ff acts cap s s') := by
  unfold PassStep
  infer_instance

instance {s : PassState} : Decidable (Finished s) := by
  unfold Finished
  infer_instance

instance {ff : Int → Bool} {acts : List ActionModel} {cap : Nat}
    {s : PassState} : Decidable (Stuck ff acts cap s) := by
  unfold Stuck
  infer_instance

theorem PassReachable.refl {ff : Int → Bool} {acts : List ActionModel}
    {cap : Nat} {s : PassState} : PassReachable ff acts cap s s :=
  Relation.ReflTransGen.refl

/-- Chain one scheduling step in front of a reachability path; the
intermediate state is given explicitly. -/
theorem PassReachable.step {ff : Int → Bool} {acts : List ActionModel}
    {cap : Nat} {s u : PassState} (t : PassState) (h1 : PassStep ff acts cap s t)
    (h2 : PassReachable ff acts cap t u) : PassReachable ff acts cap s u :=
  Relation.ReflTransGen.head h1 h2

theorem mem_taskStepsAux {ff : Int → Bool} {acts : List ActionModel}
    {s : PassState} :
    ∀ {ts : List WTask} {i : Nat} {x : PassState}, x ∈ taskStepsAux ff acts s i ts →
      ∃ j t, ts[j]? = some t ∧ x ∈ taskSteps ff acts s (i + j) t := by
  intro ts
  induction ts with
  | nil =>
    intro i x hx
    simp [taskStepsAux] at hx
  | cons t ts ih =>
    intro i x hx
    rw [taskStepsAux] at hx
    rcases List.mem_append.1 hx with h | h
    · exact ⟨0, t, by simp, by simpa using h⟩
    · obtain ⟨j, u, hj, hu⟩ := ih h
      refine ⟨j + 1, u, by simpa using hj, ?_⟩
      have harith : i + (j + 1) = i + 1 + j := by omega
      rw [harith]
      exact hu

theorem taskStepsAux_mem {ff : Int → Bool} {acts : List ActionModel}
    {s : PassState} :
    ∀ {ts : List WTask} {i j : Nat} {t : WTask} {x : PassState}, ts[j]? = some t →
      x ∈ taskSteps ff acts s (i + j) t → x ∈ taskStepsAux ff acts s i ts := by
  intro ts
  induction ts with
  | nil =>
    intro i j t x hj
    cases hj
  | cons u ts ih =>
    intro i j t x hj hx
    rw [taskStepsAux]
    cases j with
    | zero =>
      have hu : u = t := by simpa using hj
      subst hu
      exact List.mem_append_left _ (by simpa using hx)
    | succ j =>
      refine List.mem_append_right _ (ih (by simpa using hj) ?_)
      have harith : i + 1 + j = i + (j + 1) := by omega
      rw [harith]
      exact hx

theorem passStep_cases {ff : Int → Bool} {acts : List ActionModel} {cap : Nat}
    {s x : PassState} (h : PassStep ff acts cap s x) :
    x ∈ mainSteps cap s ∨ ∃ j t, s.tasks[j]? = some t ∧ x ∈ taskSteps ff acts s j t := by
  rcases List.mem_append.1 h with h | h
  · exact .inl h
  · obtain ⟨j, t, hj, ht⟩ := mem_taskStepsAux h
    exact .inr ⟨j, t, hj, by simpa using ht⟩

theorem passStep_of_main {ff : Int → Bool} {acts : List ActionModel} {cap : Nat}
    {s x : PassState} (hx : x ∈ mainSteps cap s) : PassStep ff acts cap s x :=
  List.mem_append_left _ hx

theorem passStep_of_task {ff : Int → Bool} {acts : List ActionModel} {cap : Nat}
    {s x : PassState} {j : Nat} {t : WTask} (hj : s.tasks[j]? = some t)
    (hx : x ∈ taskSteps ff acts s j t) : PassStep ff acts cap s x :=
  List.mem_append_right _ (taskStepsAux_mem hj (by simpa using hx))

theorem mainSteps_cases {cap : Nat} {s x : PassState} (h : x ∈ mainSteps cap s) :
    ∃ hh rest, s.remaining = hh :: rest ∧ s.semCount < cap ∧
      x = { s with remaining := rest, semCount := s.semCount + 1,
                   tasks := s.tasks ++ [⟨hh, .fetching⟩] } := by
  unfold mainSteps at h
  split at h
  · cases h
  · rename_i hh rest heq
    split at h
    · rename_i hc
      exact ⟨hh, rest, heq, hc, by simpa using h⟩
    · cases h

/-- Enumeration of every worker transition: a step of worker `j` (holding
task `t`) is one of the seven statements a worker can execute. -/
theorem taskSteps_cases {ff : Int → Bool} {acts : List ActionModel}
    {s x : PassState} {j : Nat} {t : WTask} (h : x ∈ taskSteps ff acts s j t) :
    (t.phase = .fetching ∧
      x = setPhase s j t (if ff t.height then .failLock else .execActions)) ∨
    (t.phase = .failLock ∧ s.mutexHeld = none ∧
      x = { setPhase s j t .failAppend with mutexHeld := some j }) ∨
    (t.phase = .failAppend ∧
      x = { setPhase s j t .failDefer with
              failedBlocks := s.failedBlocks ++ [t.height] }) ∨
    (t.phase = .failDefer ∧ s.mutexHeld = none ∧
      x = { setPhase s j t .failRelease with mutexHeld := some j }) ∨
    (t.phase = .failRelease ∧
      x = { setPhase s j t .doneErr with semCount := s.semCount - 1 }) ∨
    (t.phase = .execActions ∧
      x = { setPhase s j t .release with
              actionLog := s.actionLog ++ tagTrace acts t.height }) ∨
    (t.phase = .release ∧
      x = { setPhase s j t .doneOk with semCount := s.semCount - 1 }) := by
  cases hp : t.phase <;> rw [taskSteps, hp] at h
  case fetching =>
    exact .inl ⟨rfl, by simpa using h⟩
  case failLock =>
    cases hm : s.mutexHeld <;> rw [hm] at h
    · exact .inr (.inl ⟨rfl, rfl, by simpa using h⟩)
    · cases h
  case failAppend =>
    exact .inr (.inr (.inl ⟨rfl, by simpa using h⟩))
  case failDefer =>
    cases hm : s.mutexHeld <;> rw [hm] at h
    · exact .inr (.inr (.inr (.inl ⟨rfl, rfl, by simpa using h⟩)))
    · cases h
  case failRelease =>
    exact .inr (.inr (.inr (.inr (.inl ⟨rfl, by simpa using h⟩))))
  case doneErr =>
    cases h
  case execActions =>
    exact .inr (.inr (.inr (.inr (.inr (.inl ⟨rfl, by simpa using h⟩)))))
  case release =>
    exact .inr (.inr (.inr (.inr (.inr (.inr ⟨rfl, by simpa using h⟩)))))
  case doneOk =>
    cases h

/-! ## The semaphore invariant

`sem <- struct{}{}` runs before each worker is launched and `<-sem` before a
worker returns (on either path), so across every interleaving the number of
occupied slots equals the number of in-flight workers and never exceeds the
channel capacity. -/

/-- The counting invariant of the `sem` channel. -/
def CountInv (cap : Nat) (s : PassState) : Prop :=
  inFlight s = s.semCount ∧ s.semCount ≤ cap

theorem countInv_init (cap : Nat) (blocks : List Int) :
    CountInv cap (initState blocks) := by
  constructor <;> simp [inFlight, initState]

theorem countP_notDone_set_live (l : List WTask) (i : Nat) (t : WTask) (z : Int)
    (p : Phase) (h : l[i]? = some t) (hdt : t.phase.isDone = false)
    (hdp : p.isDone = false) :
    (l.set i ⟨z, p⟩).countP (fun u => !u.phase.isDone) =
      l.countP (fun u => !u.phase.isDone) := by
  have hb := countP_set_balance (fun u => !u.phase.isDone) l i t ⟨z, p⟩ h
  simp [hdt, hdp] at hb
  omega

theorem countP_notDone_set_done (l : List WTask) (i : Nat) (t : WTask) (z : Int)
    (p : Phase) (h : l[i]? = some t) (hdt : t.phase.isDone = false)
    (hdp : p.isDone = true) :
    (l.set i ⟨z, p⟩).countP (fun u => !u.phase.isDone) + 1 =
      l.countP (fun u => !u.phase.isDone) := by
  have hb := countP_set_balance (fun u => !u.phase.isDone) l i t ⟨z, p⟩ h
  simp [hdt, hdp] at hb
  omega

theorem countInv_step {ff : Int → Bool} {acts : List ActionModel} {cap : Nat}
    {s x : PassState} (h : PassStep ff acts cap s x) (hs : CountInv cap s) :
    CountInv cap x := by
  obtain ⟨h1, h2⟩ := hs
  rcases passStep_cases h with hm | ⟨j, t, hj, ht⟩
  · obtain ⟨hh, rest, hr, hc, rfl⟩ := mainSteps_cases hm
    refine ⟨?_, hc⟩
    simp only [inFlight] at h1 ⊢
    rw [List.countP_append]
    have hone : List.countP (fun u => !u.phase.isDone)
        [(⟨hh, Phase.fetching⟩ : WTask)] = 1 := rfl
    rw [hone]
    omega
  · simp only [inFlight] at h1
    rcases taskSteps_cases ht with ⟨hp, rfl⟩ | ⟨hp, hm, rfl⟩ | ⟨hp, rfl⟩ |
      ⟨hp, hm, rfl⟩ | ⟨hp, rfl⟩ | ⟨hp, rfl⟩ | ⟨hp, rfl⟩
    · have hpn : (if ff t.height = true then Phase.failLock
          else Phase.execActions).isDone = false := by
        cases hff : ff t.height <;> simp [hff, Phase.isDone]
      have hb := countP_notDone_set_live s.tasks j t t.height _ hj
        (by rw [hp]; rfl) hpn
      refine ⟨?_, h2⟩
      simp only [inFlight, setPhase]
      omega
    · have hb := countP_notDone_set_live s.tasks j t t.height Phase.failAppend hj
        (by rw [hp]; rfl) rfl
      refine ⟨?_, h2⟩
      simp only [inFlight, setPhase]
      omega
    · have hb := countP_notDone_set_live s.tasks j t t.height Phase.failDefer hj
        (by rw [hp]; rfl) rfl
      refine ⟨?_, h2⟩
      simp only [inFlight, setPhase]
      omega
    · have hb := countP_notDone_set_live s.tasks j t t.height Phase.failRelease hj
        (by rw [hp]; rfl) rfl
      refine ⟨?_, h2⟩
      simp only [inFlight, setPhase]
      omega
    · have hb := countP_notDone_set_done s.tasks j t t.height Phase.doneErr hj
        (by rw [hp]; rfl) rfl
      refine ⟨?_, Nat.le_trans (Nat.sub_le _ _) h2⟩
      simp only [inFlight, setPhase]
      omega
    · have hb := countP_notDone_set_live s.tasks j t t.height Phase.release hj
        (by rw [hp]; rfl) rfl
      refine ⟨?_, h2⟩
      simp only [inFlight, setPhase]
      omega
    · have hb := countP_notDone_set_done s.tasks j t t.height Phase.doneOk hj
        (by rw [hp]; rfl) rfl
      refine ⟨?_, Nat.le_trans (Nat.sub_le _ _) h2⟩
      simp only [inFlight, setPhase]
      omega

/-- Across every interleaving of a pass, the counting invariant holds. -/
theorem countInv_reachable {ff : Int → Bool} {acts : List ActionModel}
    {cap : Nat} {hs : List Int} {s : PassState}
    (h : PassReachable ff acts cap (initState hs) s) : CountInv cap s := by
  induction h with
  | refl => exact countInv_init cap hs
  | tail hrt hstep ih => exact countInv_step hstep ih

/-! ## The mutex invariant

The failure path of a worker runs `mutex.Lock()`, appends, and then — in the
deferred statement — runs `mutex.Lock()` *again* instead of `mutex.Unlock()`;
no statement of `ForEachBlock` ever unlocks the mutex.  The invariant below
captures the consequences across every interleaving: whoever is past the
first acquire still holds the mutex, nobody ever reaches the `<-sem` /
`return err` statements of the failure path, and a non-empty `failedBlocks`
keeps some worker parked at the deferred acquire forever. -/

/-- The mutex/failure-path invariant over the relevant components of a
state. -/
def MutexInvParts (ts : List WTask) (mh : Option Nat) (fb : List Int) : Prop :=
  (∀ i : Nat, mh = some i → ∃ t : WTask, ts[i]? = some t ∧
      (t.phase = .failAppend ∨ t.phase = .failDefer)) ∧
  (∀ (i : Nat) (t : WTask), ts[i]? = some t →
      t.phase = .failAppend ∨ t.phase = .failDefer → mh = some i) ∧
  (∀ t ∈ ts, t.phase ≠ .failRelease ∧ t.phase ≠ .doneErr) ∧
  (fb ≠ [] → ∃ (i : Nat) (t : WTask), ts[i]? = some t ∧ t.phase = .failDefer)

/-- The mutex/failure-path invariant of a pass state. -/
def MutexInv (s : PassState) : Prop :=
  MutexInvParts s.tasks s.mutexHeld s.failedBlocks

/-- A phase change of one worker that touches neither the fail-path-owner
phases nor the unreachable phases preserves the mutex invariant. -/
theorem mutexInvParts_clean {ts : List WTask} {mh : Option Nat} {fb : List Int}
    {j : Nat} {t : WTask} (p : Phase) (hj : ts[j]? = some t)
    (hs : MutexInvParts ts mh fb)
    (ht1 : t.phase ≠ .failAppend) (ht2 : t.phase ≠ .failDefer)
    (hp1 : p ≠ .failAppend) (hp2 : p ≠ .failDefer) (hp3 : p ≠ .failRelease)
    (hp4 : p ≠ .doneErr) :
    MutexInvParts (ts.set j ⟨t.height, p⟩) mh fb := by
  obtain ⟨inv1, inv2, inv3, inv4⟩ := hs
  refine ⟨?_, ?_, ?_, ?_⟩
  · intro i hi
    obtain ⟨u, hu, hph⟩ := inv1 i hi
    by_cases hij : i = j
    · subst hij
      rw [hj] at hu
      injection hu with hu
      subst hu
      rcases hph with h | h
      · exact absurd h ht1
      · exact absurd h ht2
    · refine ⟨u, ?_, hph⟩
      rw [getElem?_set_other _ hij]
      exact hu
  · intro i u hu hph
    by_cases hij : i = j
    · subst hij
      rw [getElem?_set_index _ hj] at hu
      injection hu with hu
      subst hu
      rcases hph with h | h
      · exact absurd h hp1
      · exact absurd h hp2
    · rw [getElem?_set_other _ hij] at hu
      exact inv2 i u hu hph
  · intro u hu
    rcases List.mem_or_eq_of_mem_set hu with h' | h'
    · exact inv3 u h'
    · subst h'
      exact ⟨hp3, hp4⟩
  · intro hfb
    obtain ⟨i, u, hu, hph⟩ := inv4 hfb
    by_cases hij : i = j
    · subst hij
      rw [hj] at hu
      injection hu with hu
      subst hu
      exact absurd hph ht2
    · refine ⟨i, u, ?_, hph⟩
      rw [getElem?_set_other _ hij]
      exact hu

theorem mutexInv_init (blocks : List Int) : MutexInv (initState blocks) := by
  refine ⟨?_, ?_, ?_, ?_⟩ <;> simp [initState]

theorem mutexInv_step {ff : Int → Bool} {acts : List ActionModel} {cap : Nat}
    {s x : PassState} (h : PassStep ff acts cap s x) (hs : MutexInv s) :
    MutexInv x := by
  rcases passStep_cases h with hm | ⟨j, t, hj, ht⟩
  · obtain ⟨hh, rest, hr, hc, rfl⟩ := mainSteps_cases hm
    obtain ⟨inv1, inv2, inv3, inv4⟩ := hs
    refine ⟨?_, ?_, ?_, ?_⟩
    · intro i hi
      obtain ⟨u, hu, hph⟩ := inv1 i hi
      exact ⟨u, getElem?_append_some hu, hph⟩
    · intro i u hu hph
      rcases getElem?_append_singleton hu with h' | ⟨hlen, rfl⟩
      · exact inv2 i u h' hph
      · rcases hph with h' | h' <;> cases h'
    · intro u hu
      rcases List.mem_append.1 hu with h' | h'
      · exact inv3 u h'
      · have hu' : u = ⟨hh, .fetching⟩ := by simpa using h'
        subst hu'
        exact ⟨by simp, by simp⟩
    · intro hfb
      obtain ⟨i, u, hu, hph⟩ := inv4 hfb
      exact ⟨i, u, getElem?_append_some hu, hph⟩
  · rcases taskSteps_cases ht with ⟨hp, rfl⟩ | ⟨hp, hm, rfl⟩ | ⟨hp, rfl⟩ |
      ⟨hp, hm, rfl⟩ | ⟨hp, rfl⟩ | ⟨hp, rfl⟩ | ⟨hp, rfl⟩
    · -- fetching → failLock / execActions
      have hif : (if ff t.height = true then Phase.failLock
            else Phase.execActions) = Phase.failLock ∨
          (if ff t.height = true then Phase.failLock
            else Phase.execActions) = Phase.execActions := by
        cases hff : ff t.height <;> simp [hff]
      show MutexInvParts (s.tasks.set j _) s.mutexHeld s.failedBlocks
      rcases hif with hif | hif <;> rw [hif] <;>
        exact mutexInvParts_clean _ hj hs (by rw [hp]; decide) (by rw [hp]; decide)
          (by decide) (by decide) (by decide) (by decide)
    · -- failLock → failAppend, taking the mutex
      obtain ⟨inv1, inv2, inv3, inv4⟩ := hs
      show MutexInvParts (s.tasks.set j ⟨t.height, .failAppend⟩) (some j)
        s.failedBlocks
      refine ⟨?_, ?_, ?_, ?_⟩
      · intro i hi
        injection hi with hi
        subst hi
        exact ⟨⟨t.height, .failAppend⟩, getElem?_set_index _ hj, .inl rfl⟩
      · intro i u hu hph
        by_cases hij : i = j
        · subst hij
          rfl
        · rw [getElem?_set_other _ hij] at hu
          have := inv2 i u hu hph
          rw [hm] at this
          cases this
      · intro u hu
        rcases List.mem_or_eq_of_mem_set hu with h' | h'
        · exact inv3 u h'
        · subst h'
          exact ⟨by simp, by simp⟩
      · intro hfb
        obtain ⟨i, u, hu, hph⟩ := inv4 hfb
        have := inv2 i u hu (.inr hph)
        rw [hm] at this
        cases this
    · -- failAppend → failDefer, appending the height under the mutex
      obtain ⟨inv1, inv2, inv3, inv4⟩ := hs
      have hmh : s.mutexHeld = some j := inv2 j t hj (.inl hp)
      show MutexInvParts (s.tasks.set j ⟨t.height, .failDefer⟩) s.mutexHeld
        (s.failedBlocks ++ [t.height])
      refine ⟨?_, ?_, ?_, ?_⟩
      · intro i hi
        rw [hmh] at hi
        injection hi with hi
        subst hi
        exact ⟨⟨t.height, .failDefer⟩, getElem?_set_index _ hj, .inr rfl⟩
      · intro i u hu hph
        by_cases hij : i = j
        · subst hij
          exact hmh
        · rw [getElem?_set_other _ hij] at hu
          have h1 := inv2 i u hu hph
          rw [hmh] at h1
          injection h1 with h1
          exact absurd h1.symm hij
      · intro u hu
        rcases List.mem_or_eq_of_mem_set hu with h' | h'
        · exact inv3 u h'
        · subst h'
          exact ⟨by simp, by simp⟩
      · intro _
        exact ⟨j, ⟨t.height, .failDefer⟩, getElem?_set_index _ hj, rfl⟩
    · -- failDefer → failRelease is impossible: the worker itself holds the mutex
      obtain ⟨inv1, inv2, inv3, inv4⟩ := hs
      have hmh := inv2 j t hj (.inr hp)
      rw [hm] at hmh
      cases hmh
    · -- failRelease is unreachable
      obtain ⟨inv1, inv2, inv3, inv4⟩ := hs
      exact absurd hp (inv3 t (List.getElem?_mem hj)).1
    · -- execActions → release
      show MutexInvParts (s.tasks.set j ⟨t.height, .release⟩) s.mutexHeld
        s.failedBlocks
      exact mutexInvParts_clean _ hj hs (by rw [hp]; decide) (by rw [hp]; decide)
        (by decide) (by decide) (by decide) (by decide)
    · -- release → doneOk
      show MutexInvParts (s.tasks.set j ⟨t.height, .doneOk⟩) s.mutexHeld
        s.failedBlocks
      exact mutexInvParts_clean _ hj hs (by rw [hp]; decide) (by rw [hp]; decide)
        (by decide) (by decide) (by decide) (by decide)

/-- Across every interleaving of a pass, the mutex invariant holds. -/
theorem mutexInv_reachable {ff : Int → Bool} {acts : List ActionModel}
    {cap : Nat} {hs : List Int} {s : PassState}
    (h : PassReachable ff acts cap (initState hs) s) : MutexInv s := by
  induction h with
  | refl => exact mutexInv_init hs
  | tail hrt hstep ih => exact mutexInv_step hstep ih

/-- A pass that drains (`eg.Wait()` returns) has an empty `failedBlocks` and
no worker returned an error, so `ForEachBlock` returns nil without recursing:
with the deferred-`Lock` slip, the recursive retry of failed heights and the
error return after `eg.Wait()` are both dead code. -/
theorem finished_pass_empty {ff : Int → Bool} {acts : List ActionModel}
    {cap : Nat} {hs : List Int} {s : PassState}
    (h : PassReachable ff acts cap (initState hs) s) (hfin : Finished s) :
    s.failedBlocks = [] ∧ passResult s = .success := by
  obtain ⟨inv1, inv2, inv3, inv4⟩ := mutexInv_reachable h
  have hfb : s.failedBlocks = [] := by
    by_contra hne
    obtain ⟨i, u, hu, hph⟩ := inv4 hne
    have hd := hfin.2 u (List.getElem?_mem hu)
    rw [hph] at hd
    cases hd
  have hnoerr : egWaitErr s = false := by
    rw [egWaitErr]
    rw [List.any_eq_false]
    intro u hu
    intro hbeq
    exact (inv3 u hu).2 (eq_of_beq hbeq)
  refine ⟨hfb, ?_⟩
  rw [passResult, hnoerr]
  simp [hfb]

/-! ## The clean-run invariant

When no height exhausts its fetch retries, every worker stays on the success
path: action failures are logged inside the per-block loop and change
nothing else — `failedBlocks` stays empty, the mutex is never taken, no
worker returns an error, and every worker that finished its action loop has
the full, registration-ordered trace of its block recorded contiguously in
the action log. -/

/-- The invariant of a pass whose fetches all succeed. -/
def CleanInv (acts : List ActionModel) (s : PassState) : Prop :=
  (∀ t ∈ s.tasks, t.phase = .fetching ∨ t.phase = .execActions ∨
      t.phase = .release ∨ t.phase = .doneOk) ∧
  s.failedBlocks = [] ∧
  s.mutexHeld = none ∧
  (∀ (i : Nat) (t : WTask), s.tasks[i]? = some t →
      t.phase = .release ∨ t.phase = .doneOk →
      tagTrace acts t.height <:+: s.actionLog)

theorem cleanInv_init (acts : List ActionModel) (blocks : List Int) :
    CleanInv acts (initState blocks) := by
  refine ⟨?_, rfl, rfl, ?_⟩ <;> simp [initState]

theorem cleanInv_step {ff : Int → Bool} {acts : List ActionModel} {cap : Nat}
    {s x : PassState} (hf : ∀ z : Int, ff z = false)
    (h : PassStep ff acts cap s x) (hs : CleanInv acts s) : CleanInv acts x := by
  obtain ⟨inv1, inv2, inv3, inv4⟩ := hs
  rcases passStep_cases h with hm | ⟨j, t, hj, ht⟩
  · obtain ⟨hh, rest, hr, hc, rfl⟩ := mainSteps_cases hm
    refine ⟨?_, inv2, inv3, ?_⟩
    · intro u hu
      rcases List.mem_append.1 hu with h' | h'
      · exact inv1 u h'
      · have hu' : u = ⟨hh, .fetching⟩ := by simpa using h'
        subst hu'
        exact .inl rfl
    · intro i u hu hph
      rcases getElem?_append_singleton hu with h' | ⟨hlen, rfl⟩
      · exact inv4 i u h' hph
      · rcases hph with h' | h' <;> cases h'
  · rcases taskSteps_cases ht with ⟨hp, rfl⟩ | ⟨hp, hm, rfl⟩ | ⟨hp, rfl⟩ |
      ⟨hp, hm, rfl⟩ | ⟨hp, rfl⟩ | ⟨hp, rfl⟩ | ⟨hp, rfl⟩
    · -- fetching → execActions (the fetch cannot fail)
      have hif : (if ff t.height = true then Phase.failLock
          else Phase.execActions) = Phase.execActions := by
        rw [hf t.height]
        simp
      rw [hif]
      refine ⟨?_, inv2, inv3, ?_⟩
      · intro u hu
        rcases List.mem_or_eq_of_mem_set hu with h' | h'
        · exact inv1 u h'
        · subst h'
          exact .inr (.inl rfl)
      · intro i u hu hph
        simp only [setPhase] at hu ⊢
        by_cases hij : i = j
        · subst hij
          rw [getElem?_set_index _ hj] at hu
          injection hu with hu
          subst hu
          rcases hph with h' | h' <;> cases h'
        · rw [getElem?_set_other _ hij] at hu
          exact inv4 i u hu hph
    · rcases inv1 t (List.getElem?_mem hj) with h' | h' | h' | h' <;>
        rw [hp] at h' <;> cases h'
    · rcases inv1 t (List.getElem?_mem hj) with h' | h' | h' | h' <;>
        rw [hp] at h' <;> cases h'
    · rcases inv1 t (List.getElem?_mem hj) with h' | h' | h' | h' <;>
        rw [hp] at h' <;> cases h'
    · rcases inv1 t (List.getElem?_mem hj) with h' | h' | h' | h' <;>
        rw [hp] at h' <;> cases h'
    · -- execActions → release, appending the block's trace to the log
      refine ⟨?_, inv2, inv3, ?_⟩
      · intro u hu
        rcases List.mem_or_eq_of_mem_set hu with h' | h'
        · exact inv1 u h'
        · subst h'
          exact .inr (.inr (.inl rfl))
      · intro i u hu hph
        simp only [setPhase] at hu ⊢
        by_cases hij : i = j
        · subst hij
          rw [getElem?_set_index _ hj] at hu
          injection hu with hu
          subst hu
          exact isInfix_suffix _ _
        · rw [getElem?_set_other _ hij] at hu
          exact isInfix_append_right (inv4 i u hu hph) _
    · -- release → doneOk
      refine ⟨?_, inv2, inv3, ?_⟩
      · intro u hu
        rcases List.mem_or_eq_of_mem_set hu with h' | h'
        · exact inv1 u h'
        · subst h'
          exact .inr (.inr (.inr rfl))
      · intro i u hu hph
        simp only [setPhase] at hu ⊢
        by_cases hij : i = j
        · subst hij
          rw [getElem?_set_index _ hj] at hu
          injection hu with hu
          subst hu
          exact inv4 _ t hj (.inl hp)
        · rw [getElem?_set_other _ hij] at hu
          exact inv4 i u hu hph

/-- Across every interleaving of a pass whose fetches all succeed, the
clean-run invariant holds. -/
theorem cleanInv_reachable {ff : Int → Bool} {acts : List ActionModel}
    {cap : Nat} {hs : List Int} {s : PassState} (hf : ∀ z : Int, ff z = false)
    (h : PassReachable ff acts cap (initState hs) s) : CleanInv acts s := by
  induction h with
  | refl => exact cleanInv_init acts hs
  | tail hrt hstep ih => exact cleanInv_step hf hstep ih

/-! ## A draining schedule for all-success passes

When every fetch succeeds there is a schedule (launch one height, run it to
completion, launch the next) that drains the whole pass; together with the
clean-run invariant this shows a pass with action failures still completes
with an empty Failure Set. -/

theorem serial_reach (ff : Int → Bool) (acts : List ActionModel) (cap : Nat)
    (hf : ∀ z : Int, ff z = false) (hcap : 0 < cap) :
    ∀ (hs : List Int) (ts : List WTask) (log : List (Int × String × Bool)),
      PassReachable ff acts cap ⟨hs, 0, ts, none, [], log⟩
        ⟨[], 0, ts ++ hs.map (fun z => ⟨z, .doneOk⟩), none, [],
          log ++ (hs.map (tagTrace acts)).flatten⟩ := by
  intro hs
  induction hs with
  | nil =>
    intro ts log
    simpa using (PassReachable.refl :
      PassReachable ff acts cap ⟨[], 0, ts, none, [], log⟩ _)
  | cons z hs ih =>
    intro ts log
    have hj1 : (ts ++ [(⟨z, .fetching⟩ : WTask)])[ts.length]? =
        some ⟨z, .fetching⟩ := List.getElem?_concat_length _ _
    have hj2 : (ts ++ [(⟨z, .execActions⟩ : WTask)])[ts.length]? =
        some ⟨z, .execActions⟩ := List.getElem?_concat_length _ _
    have hj3 : (ts ++ [(⟨z, .release⟩ : WTask)])[ts.length]? =
        some ⟨z, .release⟩ := List.getElem?_concat_length _ _
    refine PassReachable.step ⟨hs, 1, ts ++ [⟨z, .fetching⟩], none, [], log⟩
      (passStep_of_main ?_) ?_
    · simp [mainSteps, hcap]
    refine PassReachable.step ⟨hs, 1, ts ++ [⟨z, .execActions⟩], none, [], log⟩
      (passStep_of_task hj1 ?_) ?_
    · simp [taskSteps, setPhase, hf z, set_append_length]
    refine PassReachable.step
      ⟨hs, 1, ts ++ [⟨z, .release⟩], none, [], log ++ tagTrace acts z⟩
      (passStep_of_task hj2 ?_) ?_
    · simp [taskSteps, setPhase, set_append_length]
    refine PassReachable.step
      ⟨hs, 0, ts ++ [⟨z, .doneOk⟩], none, [], log ++ tagTrace acts z⟩
      (passStep_of_task hj3 ?_) ?_
    · simp [taskSteps, setPhase, set_append_length]
    have hfin := ih (ts ++ [⟨z, .doneOk⟩]) (log ++ tagTrace acts z)
    simpa [List.append_assoc] using hfin

/-- With a single height whose fetch exhausts its retries, the pass launches
the worker, fails the fetch, takes the mutex, appends the height, and stops
at the deferred `mutex.Lock()`. -/
theorem fail_path_reach {ff : Int → Bool} {acts : List ActionModel} {cap : Nat}
    {z : Int} (hff : ff z = true) (hcap : 0 < cap) :
    PassReachable ff acts cap (initState [z])
      ⟨[], 1, [⟨z, .failDefer⟩], some 0, [z], []⟩ := by
  refine PassReachable.step ⟨[], 1, [⟨z, .fetching⟩], none, [], []⟩
    (passStep_of_main ?_) ?_
  · simp [initState, mainSteps, hcap]
  refine PassReachable.step ⟨[], 1, [⟨z, .failLock⟩], none, [], []⟩
    (passStep_of_task (j := 0) (t := ⟨z, .fetching⟩) rfl ?_) ?_
  · simp [taskSteps, setPhase, hff]
  refine PassReachable.step ⟨[], 1, [⟨z, .failAppend⟩], some 0, [], []⟩
    (passStep_of_task (j := 0) (t := ⟨z, .failLock⟩) rfl ?_) ?_
  · simp [taskSteps, setPhase]
  refine PassReachable.step ⟨[], 1, [⟨z, .failDefer⟩], some 0, [z], []⟩
    (passStep_of_task (j := 0) (t := ⟨z, .failAppend⟩) rfl ?_) .refl
  simp [taskSteps, setPhase]

/-! ## The claims -/

/-- C1.  The spec requires every append to the Failure Set to acquire the
mutual-exclusion lock exactly once and release it exactly once on every code
path.  The code instead runs `mutex.Lock(); defer mutex.Lock()` around the
append and never unlocks: with one height (5) whose fetch exhausts its
retries and concurrency 1, the pass reaches the state in which the worker
holds the mutex (`mutexHeld = some 0`), is parked at the deferred second
acquire (phase `failDefer`), and no transition exists at all (`Stuck`) —
the lock is acquired and never released, and the run deadlocks instead of
completing. -/
theorem c1_failure_append_double_lock_deadlock :
    PassReachable (fun _ => true) [] 1 (initState [5])
        ⟨[], 1, [⟨5, .failDefer⟩], some 0, [5], []⟩ ∧
      Stuck (fun _ => true) [] 1 ⟨[], 1, [⟨5, .failDefer⟩], some 0, [5], []⟩ ∧
      (⟨[], 1, [⟨5, .failDefer⟩], some 0, [5], []⟩ : PassState).mutexHeld =
        some 0 ∧
      ¬ Finished ⟨[], 1, [⟨5, .failDefer⟩], some 0, [5], []⟩ := by
  refine ⟨fail_path_reach rfl (by decide), by decide, rfl, by decide⟩

/-- C2.  The spec: a height whose fetch exhausts its retries goes to the
Failure Set without ending the run, and after the pass drains the engine
recurses on the Failure Set until it is empty.  In the code the failing
worker deadlocks on the deferred `mutex.Lock()` right after the append —
concretely, with heights `[7]` and concurrency 2 the pass reaches a stuck
non-final state whose `failedBlocks` is `[7]` — so the pass never drains.
Moreover, across every interleaving, any pass that does drain has an empty
`failedBlocks` and returns nil: the recursive call on the Failure Set (and
the `return err` after `eg.Wait()`) are dead code. -/
theorem c2_failure_recursion_unreachable :
    (PassReachable (fun _ => true) [] 2 (initState [7])
        ⟨[], 1, [⟨7, .failDefer⟩], some 0, [7], []⟩ ∧
      Stuck (fun _ => true) [] 2 ⟨[], 1, [⟨7, .failDefer⟩], some 0, [7], []⟩ ∧
      ¬ Finished ⟨[], 1, [⟨7, .failDefer⟩], some 0, [7], []⟩ ∧
      (⟨[], 1, [⟨7, .failDefer⟩], some 0, [7], []⟩ : PassState).failedBlocks =
        [7]) ∧
    (∀ (ff : Int → Bool) (acts : List ActionModel) (cap : Nat) (hs : List Int)
        (s : PassState), PassReachable ff acts cap (initState hs) s →
        Finished s → s.failedBlocks = [] ∧ passResult s = .success) := by
  constructor
  · exact ⟨fail_path_reach rfl (by decide), by decide, by decide, rfl⟩
  · intro ff acts cap hs s hreach hfin
    exact finished_pass_empty hreach hfin

/-- C4.  Bounded parallelism holds: across every interleaving the number of
in-flight workers equals the occupied semaphore slots and never exceeds the
budget.  But the second half of the claim — the slot is released on
completion regardless of outcome — fails on the fetch-failure path: with
budget 1 and heights `[1, 2]` where only height 1's fetch fails, the pass
reaches a stuck state in which the failed worker still holds its slot
(`semCount = 1`, `inFlight = 1`), height 2 was never launched
(`remaining = [2]`), and no transition exists: the slot is never released
because the worker deadlocks on the failure-set mutex before `<-sem`. -/
theorem c4_semaphore_bound_holds_but_slot_leaks :
    (∀ (ff : Int → Bool) (acts : List ActionModel) (cap : Nat) (hs : List Int)
        (s : PassState), PassReachable ff acts cap (initState hs) s →
        inFlight s = s.semCount ∧ s.semCount ≤ cap) ∧
    (PassReachable (fun z => z == 1) [] 1 (initState [1, 2])
        ⟨[2], 1, [⟨1, .failDefer⟩], some 0, [1], []⟩ ∧
      Stuck (fun z => z == 1) [] 1 ⟨[2], 1, [⟨1, .failDefer⟩], some 0, [1], []⟩ ∧
      (⟨[2], 1, [⟨1, .failDefer⟩], some 0, [1], []⟩ : PassState).semCount = 1 ∧
      inFlight ⟨[2], 1, [⟨1, .failDefer⟩], some 0, [1], []⟩ = 1 ∧
      (⟨[2], 1, [⟨1, .failDefer⟩], some 0, [1], []⟩ : PassState).remaining =
        [2] ∧
      ¬ Finished ⟨[2], 1, [⟨1, .failDefer⟩], some 0, [1], []⟩) := by
  constructor
  · intro ff acts cap hs s hreach
    exact countInv_reachable hreach
  · refine ⟨?_, by decide, rfl, by decide, rfl, by decide⟩
    refine PassReachable.step ⟨[2], 1, [⟨1, .fetching⟩], none, [], []⟩
      (by decide) ?_
    refine PassReachable.step ⟨[2], 1, [⟨1, .failLock⟩], none, [], []⟩
      (by decide) ?_
    refine PassReachable.step ⟨[2], 1, [⟨1, .failAppend⟩], some 0, [], []⟩
      (by decide) ?_
    exact PassReachable.step ⟨[2], 1, [⟨1, .failDefer⟩], some 0, [1], []⟩
      (by decide) .refl

/-- C5.  The fetch of each height is wrapped in the retry policy
`Attempts(5)`, `Delay(400ms)`, `BackOffDelay`, `LastErrorOnly(true)`: an
always-failing fetch is invoked exactly 5 times, the reported error is the
final (5th) attempt's, the inter-attempt delay starts at 400ms and doubles
(so it is non-decreasing), and the height then enters the Failure Set (the
pass reaches a state whose `failedBlocks` holds the height). -/
theorem c5_retry_exhaustion_five_attempts
    (fetch : Int → Nat → Except String Int) (msgs : Nat → String) (z : Int)
    (hfail : ∀ n : Nat, fetch z n = .error (msgs n)) :
    retryCount (fetch z) = 5 ∧
    RtyAttNum = 5 ∧
    retryDo (fetch z) = .error (msgs 4) ∧
    backOffDelayMs 0 = 400 ∧
    (∀ n : Nat, backOffDelayMs (n + 1) = 2 * backOffDelayMs n) ∧
    (∀ (acts : List ActionModel) (cap : Nat), 0 < cap →
      PassReachable (fun w => !(retryDo (fetch w)).isOk) acts cap
        (initState [z]) ⟨[], 1, [⟨z, .failDefer⟩], some 0, [z], []⟩) := by
  have hdo : retryDo (fetch z) = .error (msgs 4) := by
    show retryFrom (fetch z) 0 5 = _
    rw [retryFrom, hfail 0]
    rw [retryFrom, hfail 1]
    rw [retryFrom, hfail 2]
    rw [retryFrom, hfail 3]
    rw [retryFrom, hfail 4]
  refine ⟨?_, rfl, hdo, rfl, ?_, ?_⟩
  · show retryCountFrom (fetch z) 0 5 = 5
    rw [retryCountFrom, hfail 0]
    rw [retryCountFrom, hfail 1]
    rw [retryCountFrom, hfail 2]
    rw [retryCountFrom, hfail 3]
    rfl
  · intro n
    show RtyDelMs * 2 ^ (n + 1) = 2 * (RtyDelMs * 2 ^ n)
    ring
  · intro acts cap hcap
    refine fail_path_reach ?_ hcap
    rw [hdo]
    rfl

/-- Witness for C5 at a concrete always-failing fetch oracle and height 9. -/
theorem c5_retry_exhaustion_five_attempts_witness :
    retryCount ((fun _ n => (Except.error (toString n) : Except String Int)) 9) =
      5 :=
  (c5_retry_exhaustion_five_attempts (fun _ n => .error (toString n)) toString 9
    (fun _ => rfl)).1

/-- C6.  When no fetch exhausts its retries, an action's `Execute` error is
only logged: across every interleaving nothing enters `failedBlocks`, no
worker returns an error, every worker past its action loop has the complete
registration-ordered trace of its block in the log (so the next action ran
even after a failure), any drained state returns nil, and a drained state is
in fact reachable whose log is exactly the concatenation of every height's
full trace. -/
theorem c6_action_failure_isolation (ff : Int → Bool) (acts : List ActionModel)
    (cap : Nat) (hs : List Int) (hf : ∀ z : Int, ff z = false) (hcap : 0 < cap) :
    (∀ s : PassState, PassReachable ff acts cap (initState hs) s →
        s.failedBlocks = [] ∧
        (∀ t ∈ s.tasks, t.phase ≠ .doneErr) ∧
        (∀ (i : Nat) (t : WTask), s.tasks[i]? = some t →
            t.phase = .release ∨ t.phase = .doneOk →
            tagTrace acts t.height <:+: s.actionLog) ∧
        (Finished s → passResult s = .success)) ∧
    (∃ s : PassState, PassReachable ff acts cap (initState hs) s ∧ Finished s ∧
        passResult s = .success ∧
        s.actionLog = (hs.map (tagTrace acts)).flatten) := by
  constructor
  · intro s hreach
    obtain ⟨inv1, inv2, inv3, inv4⟩ := cleanInv_reachable hf hreach
    have hnoerr : ∀ t ∈ s.tasks, t.phase ≠ Phase.doneErr := by
      intro t ht hcontra
      rcases inv1 t ht with h | h | h | h <;> rw [hcontra] at h <;> cases h
    refine ⟨inv2, hnoerr, inv4, ?_⟩
    intro _
    have hW : egWaitErr s = false := by
      rw [egWaitErr, List.any_eq_false]
      intro u hu hbeq
      exact hnoerr u hu (eq_of_beq hbeq)
    rw [passResult, hW]
    simp [inv2]
  · refine ⟨⟨[], 0, hs.map (fun z => ⟨z, .doneOk⟩), none, [],
      (hs.map (tagTrace acts)).flatten⟩, ?_, ?_, ?_, rfl⟩
    · have hser := serial_reach ff acts cap hf hcap hs [] []
      simpa [initState] using hser
    · refine ⟨rfl, ?_⟩
      intro t ht
      obtain ⟨z, hz, rfl⟩ := List.mem_map.1 ht
      rfl
    · have hW : egWaitErr ⟨[], 0, hs.map (fun z => ⟨z, .doneOk⟩), none, [],
          (hs.map (tagTrace acts)).flatten⟩ = false := by
        rw [egWaitErr, List.any_eq_false]
        intro u hu
        obtain ⟨z, hz, rfl⟩ := List.mem_map.1 hu
        exact fun hbeq => Phase.noConfusion (eq_of_beq hbeq)
      rw [passResult, hW]
      simp

/-- A test action that fails on block 5 (the spec's action-isolation
scenario). -/
def actA : ActionModel :=
  ⟨"A", fun z => if z = 5 then .error "A failed" else .ok ()⟩

/-- A test action that always succeeds. -/
def actB : ActionModel := ⟨"B", fun _ => .ok ()⟩

/-- Witness for C6: actions `[A, B]` where `A` fails on block 5, heights
`[5, 6]`, concurrency 1 — the run drains, returns nil, and every height got
its full trace. -/
theorem c6_action_failure_isolation_witness :
    ∃ s : PassState,
      PassReachable (fun _ => false) [actA, actB] 1 (initState [5, 6]) s ∧
      Finished s ∧ passResult s = .success ∧
      s.actionLog = ([5, 6].map (tagTrace [actA, actB])).flatten :=
  (c6_action_failure_isolation (fun _ => false) [actA, actB] 1 [5, 6]
    (fun _ => rfl) (by decide)).2

/-- C7.  For a fetched block, the worker's action loop is the sequential
`for _, a := range actions` loop: the invocation trace is exactly the map of
the registered actions in registration order (one `Execute` invocation per
action against that one block, deterministically), and its sequence of names
is the registration-order name list. -/
theorem c7_actions_in_registration_order (acts : List ActionModel) (z : Int) :
    execBlockActions acts z =
      acts.map (fun a => (a.name, (a.execute z).isOk)) ∧
    (execBlockActions acts z).map Prod.fst = acts.map ActionModel.name := by
  have h1 : execBlockActions acts z =
      acts.map (fun a => (a.name, (a.execute z).isOk)) := by
    induction acts with
    | nil => rfl
    | cons a rest ih =>
      cases hx : a.execute z <;>
        simp [execBlockActions, hx, ih, Except.isOk, Except.toBool]
  refine ⟨h1, ?_⟩
  rw [h1, List.map_map]
  rfl

/-- C3 counterexample.  With one registered action and concurrency 2, the
start pipeline reaches the engine having made zero `MigrateSchema`
invocations — not one per registered action, and with no schema-preparation
result that could prevent the run from starting. -/
theorem c3_no_migrate_call_counterexample :
    startCmdRun [BlockActionName] 1 3 2 =
      .ok [.forEachBlockStarted [1, 2] [BlockActionName] 2] ∧
    migrateCalls [.forEachBlockStarted [1, 2] [BlockActionName] 2] = 0 := by
  constructor <;> rfl

/-- C3 amended.  `MigrateSchema` is declared by the `BlockAction` interface
and implemented by the actions, but `startCmd` never invokes it: every run
that reaches the engine does so with zero schema-preparation calls in its
trace. -/
theorem c3_schema_preparation_never_invoked (cfgActions : List String)
    (b e : Int) (c : Nat) (evs : List StartEvent)
    (hok : startCmdRun cfgActions b e c = .ok evs) :
    migrateCalls evs = 0 := by
  simp only [startCmdRun] at hok
  split at hok
  · cases hok
  · split at hok
    · cases hok
    · injection hok with hok
      subst hok
      rfl

/-- Witness for C3's amended claim at a concrete configuration. -/
theorem c3_schema_preparation_never_invoked_witness :
    migrateCalls [.forEachBlockStarted [1, 2] [BlockActionName] 2] = 0 :=
  c3_schema_preparation_never_invoked [BlockActionName] 1 3 2 _ rfl

/-- C8 counterexample.  `"daodao"` does not resolve (`GetBlockActionByName`
returns the configuration error), yet the start command containing it along
with a valid name still reaches the engine: the unknown name is logged and
skipped, not surfaced. -/
theorem c8_unknown_action_skipped_counterexample :
    GetBlockActionByName "daodao" =
      .error "there is no block action configured with the name daodao" ∧
    startCmdRun ["daodao", BlockActionName] 1 3 1 =
      .ok [.forEachBlockStarted [1, 2] [BlockActionName] 1] := by
  constructor <;> rfl

/-- C8 amended.  `GetBlockActionByName` returns an error for every
unregistered name, but `startCmd` merely logs and skips such a name: the run
pipeline behaves as if the name were absent, and it fails only when no
configured name resolves at all (`noBlockActions`). -/
theorem c8_unknown_action_logged_and_skipped (name : String)
    (hname : name ≠ BlockActionName) (rest : List String) (b e : Int)
    (c : Nat) :
    GetBlockActionByName name =
      .error ("there is no block action configured with the name " ++ name) ∧
    resolveActions (name :: rest) = resolveActions rest ∧
    startCmdRun (name :: rest) b e c = startCmdRun rest b e c := by
  have h1 : GetBlockActionByName name =
      .error ("there is no block action configured with the name " ++ name) := by
    rw [GetBlockActionByName, if_neg hname]
  have h2 : resolveActions (name :: rest) = resolveActions rest := by
    simp [resolveActions, h1]
  refine ⟨h1, h2, ?_⟩
  by_cases hc : c < 1
  · rw [startCmdRun, if_pos hc, startCmdRun, if_pos hc]
  · rw [startCmdRun, if_neg hc, startCmdRun, if_neg hc]
    simp only [h2]

/-- Witness for C8's amended claim: the unregistered `"daodao"` next to the
registered `"ics20_transfers"`. -/
theorem c8_unknown_action_logged_and_skipped_witness :
    GetBlockActionByName "daodao" =
      .error ("there is no block action configured with the name " ++
        "daodao") ∧
    resolveActions ["daodao", BlockActionName] =
      resolveActions [BlockActionName] ∧
    startCmdRun ["daodao", BlockActionName] 1 3 1 =
      startCmdRun [BlockActionName] 1 3 1 :=
  c8_unknown_action_logged_and_skipped "daodao" (by decide) [BlockActionName]
    1 3 1

/-- C9 counterexample.  `ForEachBlock` itself performs no concurrency
validation: called with concurrency 0 on a non-empty height list, the pass
makes no transition at all (the main goroutine blocks forever sending on the
unbuffered channel), is not a completed run, and has launched nothing —
it hangs instead of returning an error. -/
theorem c9_zero_concurrency_deadlock_counterexample :
    Stuck (fun _ => false) [] 0 (initState [1]) ∧
    ¬ Finished (initState [1]) ∧ inFlight (initState [1]) = 0 :=
  ⟨by decide, by decide, rfl⟩

/-- C9 amended.  The `concurrency ≥ 1` validation lives in the start
command, which fails fast with the configuration error before invoking the
engine; `ForEachBlock` itself does not validate, and with concurrency 0 and
a non-empty height list its initial state is already stuck and unfinished. -/
theorem c9_validation_in_start_command_only (cfgActions : List String)
    (b e : Int) (c : Nat) (hc : c < 1) (ff : Int → Bool)
    (acts : List ActionModel) (z : Int) (hs : List Int) :
    startCmdRun cfgActions b e c = .error .invalidConcurrentBlocks ∧
    Stuck ff acts 0 (initState (z :: hs)) ∧
    ¬ Finished (initState (z :: hs)) := by
  refine ⟨?_, ?_, ?_⟩
  · rw [startCmdRun, if_pos hc]
  · show stepsFrom ff acts 0 (initState (z :: hs)) = []
    simp [stepsFrom, initState, mainSteps, taskStepsAux]
  · intro hfin
    have hrem := hfin.1
    simp [initState] at hrem

/-- Witness for C9's amended claim at concurrency 0. -/
theorem c9_validation_in_start_command_only_witness :
    startCmdRun [BlockActionName] 1 3 0 = .error .invalidConcurrentBlocks ∧
    Stuck (fun _ => false) [] 0 (initState [2]) ∧
    ¬ Finished (initState [2]) :=
  c9_validation_in_start_command_only [BlockActionName] 1 3 0 (by decide)
    (fun _ => false) [] 2 []

/-- C10.  In `IndexIBCTransfers`, a transaction that decodes and whose
results are queried successfully is cast with the unchecked type assertion
`fee := sdkTx.(sdk.FeeTx)`: when the decoded transaction does not implement
the interface, `Execute` panics — it neither skips the transaction nor
returns an error (transactions before it that are skipped or pass the cast
do not prevent the panic). -/
theorem c10_unchecked_fee_assertion_panics (pre post : List TxModel)
    (tx : TxModel) (hd : tx.decodes = true) (hq : tx.queryOk = true)
    (hfee : tx.isFeeTx = false)
    (hpre : ∀ u ∈ pre, (u.decodes && u.queryOk && !u.isFeeTx) = false) :
    indexIBCTransfers (pre ++ tx :: post) = .panics := by
  induction pre with
  | nil =>
    simp [indexIBCTransfers, hd, hq, hfee]
  | cons u us ih =>
    have ih' := ih (fun v hv => hpre v (List.mem_cons_of_mem u hv))
    cases hud : u.decodes <;> cases huq : u.queryOk <;>
      cases huf : u.isFeeTx <;>
      simp [indexIBCTransfers, hud, huq, huf] <;>
      exact ih'

/-- Witness for C10: a single decodable, queryable transaction that does not
implement `sdk.FeeTx`. -/
theorem c10_unchecked_fee_assertion_panics_witness :
    indexIBCTransfers [⟨true, true, false⟩] = .panics :=
  c10_unchecked_fee_assertion_panics [] [] ⟨true, true, false⟩ rfl rfl rfl
    (fun u hu => absurd hu (List.not_mem_nil u))

end Valis
